import Mathlib

/-!
Shallow embedding of `packages/taquito-michel-codec/src/binary.ts`:
the Micheline → binary encoder (`emitBinary` / `encodeBinary`), its `Writer`
byte sink, the primitive table and the tag scheme, together with proofs of
the specified properties.

Conventions of the embedding:
* JS numbers that are only ever small non-negative integers are `Nat`;
  `BigInt` values are `Int`/`Nat`.
* `val | 0` followed by shift-and-mask byte extraction emits the bytes of
  `val mod 2^32`; on the natural numbers appearing here this is modelled by
  `% 2 ^ 32` and `% 256`.
* Fallible encoding returns `Except String (List Nat)`; the single `throw`
  in the source becomes the `Except.error` case.
-/

/-- The Micheline expression type `Expr` (from `micheline.ts`) as consumed by
`encodeBinary`: an array of expressions, a string literal, an integer literal
holding decimal text, a bytes literal holding hex text, or a prim application
with optional argument and annot lists (the `args?`/`annots?` fields). -/
inductive Expr where
  | seq (els : List Expr)
  | str (s : String)
  | int (s : String)
  | bytes (s : String)
  | prim (name : String) (args : Option (List Expr)) (annots : Option (List String))

/-- The `primitives` table (lines 4-19 of `binary.ts`), in source order. -/
def primitives : List String :=
  ["parameter", "storage", "code", "False", "Elt", "Left", "None", "Pair",
   "Right", "Some", "True", "Unit", "PACK", "UNPACK", "BLAKE2B", "SHA256", "SHA512", "ABS", "ADD",
   "AMOUNT", "AND", "BALANCE", "CAR", "CDR", "CHECK_SIGNATURE", "COMPARE", "CONCAT", "CONS",
   "CREATE_ACCOUNT", "CREATE_CONTRACT", "IMPLICIT_ACCOUNT", "DIP", "DROP", "DUP", "EDIV", "EMPTY_MAP",
   "EMPTY_SET", "EQ", "EXEC", "FAILWITH", "GE", "GET", "GT", "HASH_KEY", "IF", "IF_CONS", "IF_LEFT",
   "IF_NONE", "INT", "LAMBDA", "LE", "LEFT", "LOOP", "LSL", "LSR", "LT", "MAP", "MEM", "MUL", "NEG",
   "NEQ", "NIL", "NONE", "NOT", "NOW", "OR", "PAIR", "PUSH", "RIGHT", "SIZE", "SOME", "SOURCE",
   "SENDER", "SELF", "STEPS_TO_QUOTA", "SUB", "SWAP", "TRANSFER_TOKENS", "SET_DELEGATE", "UNIT",
   "UPDATE", "XOR", "ITER", "LOOP_LEFT", "ADDRESS", "CONTRACT", "ISNAT", "CAST", "RENAME", "bool",
   "contract", "int", "key", "key_hash", "lambda", "list", "map", "big_map", "nat", "option", "or",
   "pair", "set", "signature", "string", "bytes", "mutez", "timestamp", "unit", "operation",
   "address", "SLICE", "DIG", "DUG", "EMPTY_BIG_MAP", "APPLY", "chain_id", "CHAIN_ID", "LEVEL",
   "SELF_ADDRESS", "never", "NEVER", "UNPAIR", "VOTING_POWER", "TOTAL_VOTING_POWER", "KECCAK",
   "SHA3", "PAIRING_CHECK", "bls12_381_g1", "bls12_381_g2", "bls12_381_fr", "sapling_state",
   "sapling_transaction", "SAPLING_EMPTY_STATE", "SAPLING_VERIFY_UPDATE", "ticket", "TICKET",
   "READ_TICKET", "SPLIT_TICKET", "JOIN_TICKETS", "GET_AND_UPDATE"]

/-- `primTags` (line 21): name → index, built by `Object.assign` over
`primitives.map((v, i) => ({[v]: i}))`, so a later index overrides an earlier
one for a repeated name (the table has no repeated names; the fold keeps the
last match to model `Object.assign` faithfully). -/
def primTags (s : String) : Option Nat :=
  primitives.enum.foldl (fun acc p => if p.2 = s then some p.1 else acc) none

/-- Property names of `Object.prototype`, the Annex B members included, as a
Node runtime exposes them. `primTags` is a plain object built by
`Object.assign({}, ...)` and so inherits from `Object.prototype`: indexing it
with any of these names finds the inherited member, not `undefined`. -/
def protoProps : List String :=
  ["constructor", "hasOwnProperty", "isPrototypeOf", "propertyIsEnumerable",
   "toLocaleString", "toString", "valueOf", "__proto__",
   "__defineGetter__", "__defineSetter__", "__lookupGetter__", "__lookupSetter__"]

/-- A defined result of the member access `primTags[expr.prim]`: an own
property holding a table index, or a member inherited from
`Object.prototype` (a function, or for `__proto__` an object). -/
inductive PrimSlot where
  | num (i : Nat)
  | member
deriving DecidableEq

/-- The member access `primTags[expr.prim]` on line 136: an own property of
the table wins; otherwise the prototype chain supplies the inherited
`Object.prototype` member for its property names; only the remaining names
evaluate to `undefined` (`none` here), making the guard on line 137 throw. -/
def primSlot (s : String) : Option PrimSlot :=
  match primTags s with
  | some i => some (.num i)
  | none => if s ∈ protoProps then some .member else none

/-- The number pushed by `writeUint8(prim)` on line 146: a table index is
written as is; an inherited member (function or object) coerces inside
`val | 0` through `ToNumber` to NaN, and `NaN | 0` is 0. -/
def primByte : PrimSlot → Nat
  | .num i => i
  | .member => 0

/-- The `Tag` enum (lines 23-35). -/
def Tag.Int : Nat := 0

def Tag.String : Nat := 1

def Tag.Sequence : Nat := 2

def Tag.Prim0 : Nat := 3

def Tag.Prim0Annot : Nat := 4

def Tag.Prim1 : Nat := 5

def Tag.Prim1Annot : Nat := 6

def Tag.Prim2 : Nat := 7

def Tag.Prim2Annot : Nat := 8

def Tag.Prim : Nat := 9

def Tag.Bytes : Nat := 10

/-- `Writer.writeUint8`: pushes `(val | 0) & 0xff`; on a natural value this
is `val % 256`. -/
def writeUint8 (v : Nat) : List Nat := [v % 256]

/-- `Writer.writeUint32`: `val | 0` truncates to 32 bits and the four
shift-and-mask pushes emit the big-endian bytes of `val mod 2^32`. -/
def writeUint32 (v : Nat) : List Nat :=
  let m := v % 2 ^ 32
  [m / 2 ^ 24 % 256, m / 2 ^ 16 % 256, m / 2 ^ 8 % 256, m % 256]

/-- `Writer.writeBytes`: pushes each value masked with `& 0xff`. -/
def writeBytes (l : List Nat) : List Nat := l.map (fun v => v % 256)

/-- UTF-8 bytes of one code point, as produced by `TextEncoder.encode`. -/
def utf8Char (c : Char) : List Nat :=
  let n := c.toNat
  if n < 128 then [n]
  else if n < 2048 then [192 + n / 64, 128 + n % 64]
  else if n < 65536 then [224 + n / 4096, 128 + n / 64 % 64, 128 + n % 64]
  else [240 + n / 262144, 128 + n / 4096 % 64, 128 + n / 64 % 64, 128 + n % 64]

/-- UTF-8 bytes of a character list. -/
def utf8Chars : List Char → List Nat
  | [] => []
  | c :: cs => utf8Char c ++ utf8Chars cs

/-- UTF-8 bytes of a string (`TextEncoder.encode`). -/
def utf8 (s : String) : List Nat := utf8Chars s.data

/-- Hex digit value of one character, as recognised by `parseInt(_, 16)`. -/
def hexVal (c : Char) : Option Nat :=
  if 48 ≤ c.toNat ∧ c.toNat ≤ 57 then some (c.toNat - 48)
  else if 97 ≤ c.toNat ∧ c.toNat ≤ 102 then some (c.toNat - 87)
  else if 65 ≤ c.toNat ∧ c.toNat ≤ 70 then some (c.toNat - 55)
  else none

/-- `parseInt(s, 16)` on a one- or two-character slice: the value of the
longest hex-digit prefix. When no digit is consumed JS yields NaN, and the
`& 0xff` mask applied by `writeBytes` turns NaN into 0, the value used here. -/
def parseIntHex : List Char → Nat → Nat
  | [], acc => acc
  | c :: rest, acc =>
    match hexVal c with
    | some d => parseIntHex rest (acc * 16 + d)
    | none => acc

/-- The hex-decoding loop of the `bytes` branch (lines 126-129):
`for (i = 0; i < length; i += 2) push(parseInt(slice(i, i + 2), 16))`. -/
def hexBytes : List Char → List Nat
  | [] => []
  | [c] => [parseIntHex [c] 0]
  | a :: b :: rest => parseIntHex [a, b] 0 :: hexBytes rest

/-- Digit fold for `BigInt` on decimal text. -/
def decNat (cs : List Char) : Nat := cs.foldl (fun a c => a * 10 + (c.toNat - 48)) 0

/-- `BigInt(expr.int)` on optional-sign decimal text; `BigInt` has no negative
zero, so "-0" converts to 0. Non-numeric text is undefined behaviour in the
source and out of scope here. -/
def strToInt (s : String) : Int :=
  match s.data with
  | [] => 0
  | c :: rest => if c = Char.ofNat 45 then -(decNat rest : Int) else (decNat (c :: rest) : Int)

/-- Loop iterations after the first of the do-while at lines 109-121: emit the
low 7 bits, set bit 7 when more magnitude remains, shift by 7, while non-zero. -/
def contBytes (v : Nat) : List Nat :=
  if h : v = 0 then []
  else
    (if v / 128 = 0 then v % 128 else v % 128 + 128) :: contBytes (v / 128)
termination_by v
decreasing_by exact Nat.div_lt_self (Nat.pos_of_ne_zero h) (by norm_num)

/-- Body bytes of an integer literal (lines 103-121): sign-magnitude base-128.
The first byte carries the low 6 bits of the magnitude, bit 6 is the sign,
bit 7 the continuation flag; the do-while runs at least once, so magnitude 0
still emits one byte. -/
def intBody (n : Int) : List Nat :=
  let val := n.natAbs
  let rest := val / 64
  let b1 := if rest = 0 then val % 64 else val % 64 + 128
  (if n < 0 then b1 + 64 else b1) :: contBytes rest

/-- Length of `expr.args?.length || 0`: 0 when the field is absent. -/
def argsLen (args : Option (List Expr)) : Nat :=
  match args with
  | none => 0
  | some l => l.length

/-- The annot test of line 142: contributes 1 to the tag unless `annots` is
absent or empty. -/
def annotBit (annots : Option (List String)) : Nat :=
  match annots with
  | none => 0
  | some l => if l.length = 0 then 0 else 1

/-- Truthiness of the condition on line 141, `expr.args?.length || 0 < 3`,
which by precedence parses as `(expr.args?.length) || (0 < 3)`: a non-zero
length is itself truthy, and otherwise the value is the boolean `0 < 3`. -/
def compactSelected (args : Option (List Expr)) : Bool :=
  match args with
  | none => decide (0 < 3)
  | some l => if l.length ≠ 0 then true else decide (0 < 3)

/-- The tag expression of lines 141-143. -/
def appTag (args : Option (List Expr)) (annots : Option (List String)) : Nat :=
  if compactSelected args then Tag.Prim0 + argsLen args * 2 + annotBit annots
  else Tag.Prim

/-- The annot block of lines 158-163: when `annots` is present and non-empty,
a 4-byte big-endian UTF-8 byte length of `annots.join(" ")` then those bytes. -/
def annotsBytes (annots : Option (List String)) : List Nat :=
  match annots with
  | none => []
  | some l =>
    if l.length = 0 then []
    else
      let bytes := utf8 (String.intercalate " " l)
      writeUint32 bytes.length ++ writeBytes bytes

mutual

/-- `encodeBinary` (lines 80-164). The scratch-writer pattern of the source
(children into a fresh `Writer`, then tag, length, bytes into the parent)
appears here as list concatenation. Line 154 calls `encodeBinary` on the
argument array, which dispatches to the `Array.isArray` branch; that branch
body is spelled out in the `encodeArgs` helper below. -/
def encodeBinary : Expr → Except String (List Nat)
  | .seq els =>
    match encodeList els with
    | .error e => .error e
    | .ok w => .ok (writeUint8 Tag.Sequence ++ writeUint32 w.length ++ writeBytes w)
  | .str s =>
    let bytes := utf8 s
    .ok (writeUint8 Tag.String ++ writeUint32 bytes.length ++ writeBytes bytes)
  | .int s =>
    .ok (writeUint8 Tag.Int ++ (intBody (strToInt s)).map (fun v => v % 256))
  | .bytes s =>
    let bytes := hexBytes s.data
    .ok (writeUint8 Tag.Bytes ++ writeUint32 bytes.length ++ writeBytes bytes)
  | .prim name args annots =>
    match primSlot name with
    | none => .error ("Cannot encode primary: " ++ name)
    | some pr =>
      match encodeArgs args with
      | .error e => .error e
      | .ok argBytes =>
        .ok (writeUint8 (appTag args annots) ++ writeUint8 (primByte pr) ++ argBytes ++
          annotsBytes annots)

/-- Lines 148-156: absent `args` contributes nothing; fewer than 3 arguments
are encoded inline in order; 3 or more are encoded as one sequence node. -/
def encodeArgs : Option (List Expr) → Except String (List Nat)
  | none => .ok []
  | some l =>
    if l.length < 3 then encodeList l
    else
      match encodeList l with
      | .error e => .error e
      | .ok w => .ok (writeUint8 Tag.Sequence ++ writeUint32 w.length ++ writeBytes w)

/-- The child loop of the `Array.isArray` branch (lines 83-85): encodings of
the elements concatenated in order, stopping at the first error. -/
def encodeList : List Expr → Except String (List Nat)
  | [] => .ok []
  | e :: rest =>
    match encodeBinary e with
    | .error err => .error err
    | .ok b =>
      match encodeList rest with
      | .error err => .error err
      | .ok r => .ok (b ++ r)

end

/-- `emitBinary` (lines 166-170): run the encoder on a fresh writer and
return its buffer. -/
def emitBinary (e : Expr) : Except String (List Nat) := encodeBinary e

/-- Decoder for the continuation bytes: value carried by bits 0-6 of each
byte, base 128, least significant group first. Used to state the varint
roundtrip property. -/
def contVal : List Nat → Nat
  | [] => 0
  | b :: rest => b % 128 + 128 * contVal rest

/-- Decoder for a whole varint body: low 6 bits of the first byte plus the
continuation value, negated when bit 6 of the first byte is set. -/
def varintVal : List Nat → Int
  | [] => 0
  | b :: rest =>
    let mag : Int := ((b % 64 + 64 * contVal rest : Nat) : Int)
    if b / 64 % 2 = 1 then -mag else mag

/-- Decoder for a 4-byte big-endian length field. -/
def u32Val : List Nat → Nat
  | [a, b, c, d] => ((a * 256 + b) * 256 + c) * 256 + d
  | _ => 0

/-- Discriminator for `Except` results. -/
def okB {ε α : Type} : Except ε α → Bool
  | .ok _ => true
  | .error _ => false

mutual

/-- The tree contains an application node whose name lookup on `primTags` is
undefined: absent from the table and not an `Object.prototype` property
name. This is the condition under which the encoder actually throws. -/
def hasUndefPrim : Expr → Bool
  | .seq els => listHasUndef els
  | .str _ => false
  | .int _ => false
  | .bytes _ => false
  | .prim name args _ => decide (primSlot name = none) || optHasUndef args

/-- Some expression of an optional argument list has an undefined name. -/
def optHasUndef : Option (List Expr) → Bool
  | none => false
  | some l => listHasUndef l

/-- Some expression of the list has an undefined name. -/
def listHasUndef : List Expr → Bool
  | [] => false
  | e :: rest => hasUndefPrim e || listHasUndef rest

end

/-- Byte list built from the claim wording for the bytes node: the k-th
output byte is the value of the k-th pair of hex digits, in order. -/
def hexPairsSpec : List Char → List Nat
  | a :: b :: rest => ((hexVal a).getD 0 * 16 + (hexVal b).getD 0) :: hexPairsSpec rest
  | _ => []

theorem contVal_contBytes (v : Nat) : contVal (contBytes v) = v := by
  induction v using Nat.strong_induction_on with
  | _ v ih =>
    rcases Nat.eq_zero_or_pos v with h | h
    · simp [contBytes, h, contVal]
    · rw [contBytes, dif_neg (Nat.pos_iff_ne_zero.mp h)]
      have ihv := ih (v / 128) (Nat.div_lt_self h (by norm_num))
      simp only [contVal, ihv]
      split <;> omega

theorem u32Val_writeUint32 (v : Nat) (h : v < 2 ^ 32) : u32Val (writeUint32 v) = v := by
  simp only [u32Val, writeUint32, Nat.mod_eq_of_lt h]
  omega

theorem varintVal_intBody (n : Int) : varintVal (intBody n) = n := by
  simp only [intBody, varintVal, contVal, contVal_contBytes]
  split_ifs <;> omega

theorem contBytes_lt (v : Nat) : ∀ b ∈ contBytes v, b < 256 := by
  induction v using Nat.strong_induction_on with
  | _ v ih =>
    rcases Nat.eq_zero_or_pos v with h | h
    · simp [contBytes, h]
    · rw [contBytes, dif_neg (Nat.pos_iff_ne_zero.mp h)]
      intro b hb
      rcases List.mem_cons.mp hb with rfl | hb
      · split <;> omega
      · exact ih (v / 128) (Nat.div_lt_self h (by norm_num)) b hb

theorem intBody_lt (n : Int) : ∀ b ∈ intBody n, b < 256 := by
  intro b hb
  rcases List.mem_cons.mp hb with rfl | hb
  · split_ifs <;> omega
  · exact contBytes_lt _ b hb

theorem map_mask_eq_self {l : List Nat} (h : ∀ x ∈ l, x < 256) :
    l.map (fun v => v % 256) = l := by
  induction l with
  | nil => rfl
  | cons a t ih =>
    have ha : a < 256 := h a (by simp)
    simp [Nat.mod_eq_of_lt ha, ih fun x hx => h x (by simp [hx])]

theorem writeBytes_eq_self {l : List Nat} (h : ∀ x ∈ l, x < 256) : writeBytes l = l :=
  map_mask_eq_self h

theorem mem_writeUint8 {x v : Nat} (h : x ∈ writeUint8 v) : x < 256 := by
  simp [writeUint8] at h
  omega

theorem mem_writeUint32 {x v : Nat} (h : x ∈ writeUint32 v) : x < 256 := by
  simp [writeUint32] at h
  rcases h with h | h | h | h <;> omega

theorem mem_writeBytes {x : Nat} {l : List Nat} (h : x ∈ writeBytes l) : x < 256 := by
  simp [writeBytes] at h
  obtain ⟨a, -, rfl⟩ := h
  omega

theorem mem_annotsBytes {x : Nat} {a : Option (List String)} (h : x ∈ annotsBytes a) : x < 256 := by
  unfold annotsBytes at h
  rcases a with - | l
  · simp at h
  · simp only at h
    split at h
    · simp at h
    · rcases List.mem_append.mp h with h | h
      · exact mem_writeUint32 h
      · exact mem_writeBytes h

mutual

theorem encodeBinary_okB (e : Expr) : okB (encodeBinary e) = !hasUndefPrim e := by
  match e with
  | .seq els =>
    have ih := encodeList_okB els
    simp only [encodeBinary, hasUndefPrim]
    cases h : encodeList els <;> simp_all [okB]
  | .str s => simp [encodeBinary, hasUndefPrim, okB]
  | .int s => simp [encodeBinary, hasUndefPrim, okB]
  | .bytes s => simp [encodeBinary, hasUndefPrim, okB]
  | .prim name args annots =>
    have ih := encodeArgs_okB args
    simp only [encodeBinary, hasUndefPrim]
    cases hp : primSlot name with
    | none => simp [hp, okB]
    | some pr => cases ha : encodeArgs args <;> simp_all [okB]

theorem encodeArgs_okB (a : Option (List Expr)) : okB (encodeArgs a) = !optHasUndef a := by
  match a with
  | none => simp [encodeArgs, optHasUndef, okB]
  | some l =>
    have ih := encodeList_okB l
    simp only [encodeArgs, optHasUndef]
    split
    · exact ih
    · cases h : encodeList l <;> simp_all [okB]

theorem encodeList_okB (l : List Expr) : okB (encodeList l) = !listHasUndef l := by
  match l with
  | [] => simp [encodeList, listHasUndef, okB]
  | e :: rest =>
    have ih1 := encodeBinary_okB e
    have ih2 := encodeList_okB rest
    simp only [encodeList, listHasUndef]
    cases h1 : encodeBinary e <;> cases h2 : encodeList rest <;> simp_all [okB]

end

mutual

theorem encodeBinary_lt (e : Expr) : ∀ l, encodeBinary e = .ok l → ∀ x ∈ l, x < 256 := by
  match e with
  | .seq els =>
    intro l hl x hx
    simp only [encodeBinary] at hl
    cases h : encodeList els with
    | error err => simp [h] at hl
    | ok w =>
      simp only [h] at hl
      cases hl
      rcases List.mem_append.mp hx with hx | hx
      · rcases List.mem_append.mp hx with hx | hx
        · exact mem_writeUint8 hx
        · exact mem_writeUint32 hx
      · exact mem_writeBytes hx
  | .str s =>
    intro l hl x hx
    simp only [encodeBinary] at hl
    cases hl
    rcases List.mem_append.mp hx with hx | hx
    · rcases List.mem_append.mp hx with hx | hx
      · exact mem_writeUint8 hx
      · exact mem_writeUint32 hx
    · exact mem_writeBytes hx
  | .int s =>
    intro l hl x hx
    simp only [encodeBinary] at hl
    cases hl
    rcases List.mem_append.mp hx with hx | hx
    · exact mem_writeUint8 hx
    · exact mem_writeBytes hx
  | .bytes s =>
    intro l hl x hx
    simp only [encodeBinary] at hl
    cases hl
    rcases List.mem_append.mp hx with hx | hx
    · rcases List.mem_append.mp hx with hx | hx
      · exact mem_writeUint8 hx
      · exact mem_writeUint32 hx
    · exact mem_writeBytes hx
  | .prim name args annots =>
    intro l hl x hx
    simp only [encodeBinary] at hl
    cases hp : primSlot name with
    | none => simp [hp] at hl
    | some pr =>
      simp only [hp] at hl
      cases ha : encodeArgs args with
      | error err => simp [ha] at hl
      | ok argBytes =>
        simp only [ha] at hl
        cases hl
        rcases List.mem_append.mp hx with hx | hx
        · rcases List.mem_append.mp hx with hx | hx
          · rcases List.mem_append.mp hx with hx | hx
            · exact mem_writeUint8 hx
            · exact mem_writeUint8 hx
          · exact encodeArgs_lt args argBytes ha x hx
        · exact mem_annotsBytes hx

theorem encodeArgs_lt (a : Option (List Expr)) : ∀ l, encodeArgs a = .ok l → ∀ x ∈ l, x < 256 := by
  match a with
  | none =>
    intro l hl x hx
    simp only [encodeArgs] at hl
    cases hl
    simp at hx
  | some el =>
    intro l hl x hx
    simp only [encodeArgs] at hl
    split at hl
    · exact encodeList_lt el l hl x hx
    · cases h : encodeList el with
      | error err => simp [h] at hl
      | ok w =>
        simp only [h] at hl
        cases hl
        rcases List.mem_append.mp hx with hx | hx
        · rcases List.mem_append.mp hx with hx | hx
          · exact mem_writeUint8 hx
          · exact mem_writeUint32 hx
        · exact mem_writeBytes hx

theorem encodeList_lt (el : List Expr) : ∀ l, encodeList el = .ok l → ∀ x ∈ l, x < 256 := by
  match el with
  | [] =>
    intro l hl x hx
    simp only [encodeList] at hl
    cases hl
    simp at hx
  | e :: rest =>
    intro l hl x hx
    simp only [encodeList] at hl
    cases h1 : encodeBinary e with
    | error err => simp [h1] at hl
    | ok b =>
      simp only [h1] at hl
      cases h2 : encodeList rest with
      | error err => simp [h2] at hl
      | ok r =>
        simp only [h2] at hl
        cases hl
        rcases List.mem_append.mp hx with hx | hx
        · exact encodeBinary_lt e b h1 x hx
        · exact encodeList_lt rest r h2 x hx

end

/-- C1 -/
theorem app_tag_always_compact :
    ∀ (args : Option (List Expr)) (annots : Option (List String)),
      compactSelected args = true ∧
      appTag args annots = Tag.Prim0 + argsLen args * 2 + annotBit annots ∧
      (argsLen args = 3 → annotBit annots = 0 → appTag args annots = Tag.Prim) ∧
      (4 ≤ argsLen args → Tag.Bytes < appTag args annots) := by
  intro args annots
  have hc : compactSelected args = true := by
    cases args with
    | none => rfl
    | some l => simp [compactSelected]
  refine ⟨hc, ?_, ?_, ?_⟩ <;>
    simp only [appTag, hc, if_true, Tag.Prim0, Tag.Prim, Tag.Bytes] <;>
    omega

theorem app_tag_always_compact_witness :
    Tag.Bytes < appTag (some [.int "1", .int "2", .int "3", .int "4"]) none :=
  (app_tag_always_compact (some [.int "1", .int "2", .int "3", .int "4"]) none).2.2.2
    (by decide)

theorem encodeInt_eq (s : String) :
    emitBinary (.int s) = .ok (Tag.Int :: intBody (strToInt s)) := by
  simp only [emitBinary, encodeBinary]
  rw [map_mask_eq_self (intBody_lt _)]
  rfl

/-- C2 -/
theorem int_encoding_layout :
    (∀ s : String, emitBinary (.int s) = .ok (Tag.Int :: intBody (strToInt s))) ∧
    (∀ n : Int, ∃ b0,
      intBody n = b0 :: contBytes (n.natAbs / 64) ∧
      b0 % 64 = n.natAbs % 64 ∧
      b0 / 64 % 2 = (if n < 0 then 1 else 0) ∧
      b0 / 128 = (if n.natAbs / 64 = 0 then 0 else 1)) ∧
    (∀ v : Nat, v ≠ 0 → ∃ b, contBytes v = b :: contBytes (v / 128) ∧
      b % 128 = v % 128 ∧ b / 128 = (if v / 128 = 0 then 0 else 1)) ∧
    (∀ n : Int, varintVal (intBody n) = n) ∧
    intBody 0 = [0] ∧
    emitBinary (.int "0") = .ok [0, 0] ∧
    emitBinary (.int "1") = .ok [0, 1] ∧
    emitBinary (.int "-1") = .ok [0, 65] := by
  refine ⟨encodeInt_eq, ?_, ?_, varintVal_intBody, ?_, ?_, ?_, ?_⟩
  · intro n
    refine ⟨_, rfl, ?_, ?_, ?_⟩ <;> split_ifs <;> omega
  · intro v hv
    rw [contBytes, dif_neg hv]
    exact ⟨_, rfl, by split_ifs <;> omega, by split_ifs <;> omega⟩
  · simp [intBody, contBytes]
  · simp [emitBinary, encodeBinary, intBody, contBytes, strToInt, decNat, writeUint8, Tag.Int]
  · simp [emitBinary, encodeBinary, intBody, contBytes, strToInt, decNat, writeUint8, Tag.Int]
  · simp [emitBinary, encodeBinary, intBody, contBytes, strToInt, decNat, writeUint8, Tag.Int]

theorem int_encoding_layout_witness :
    ∃ b, contBytes 1 = b :: contBytes (1 / 128) ∧
      b % 128 = 1 % 128 ∧ b / 128 = (if 1 / 128 = 0 then 0 else 1) :=
  int_encoding_layout.2.2.1 1 (by decide)

/-- What holds of the program in place of the stated error contract: encoding
succeeds exactly when no application node has an undefined lookup (a name
absent from the table AND from the `Object.prototype` property names); when
such a node exists the whole call aborts with the error and returns no
bytes. -/
theorem emit_ok_iff_defined (e : Expr) :
    (∃ b, emitBinary e = .ok b) ↔ hasUndefPrim e = false := by
  have h := encodeBinary_okB e
  constructor
  · rintro ⟨b, hb⟩
    rw [emitBinary] at hb
    rw [hb] at h
    simpa [okB] using h.symm
  · intro hu
    rw [hu] at h
    cases he : encodeBinary e with
    | ok b => exact ⟨b, by rw [emitBinary, he]⟩
    | error err =>
      rw [he] at h
      simp [okB] at h

/-- C3: the code is at fault, not the claim. "toString" is absent from the
primitive table, yet encoding it does not raise: the lookup on line 136
finds the member inherited from `Object.prototype`, the guard on line 137
sees a defined value, and line 146 writes its NaN coercion 0 as the prim
byte, so the application of "toString" encodes to [3, 0] — the bytes of a
`parameter` application — instead of aborting as the spec requires for every
name absent from the table. -/
theorem unknown_prim_code_bug :
    primTags "toString" = none ∧
    emitBinary (Expr.prim "toString" none none) = .ok [3, 0] := by
  constructor
  · decide
  · simp [emitBinary, encodeBinary, encodeArgs, appTag, argsLen, annotBit, compactSelected,
      annotsBytes, writeUint8, primByte, Tag.Prim0,
      show primSlot "toString" = some .member from by decide]

/-- C4 -/
theorem sequence_length_prefix :
    (∀ (l : List Expr) (body b : List Nat),
      encodeList l = .ok body → encodeBinary (.seq l) = .ok b →
      b = writeUint8 Tag.Sequence ++ writeUint32 body.length ++ body ∧
      (body.length < 2 ^ 32 → u32Val (writeUint32 body.length) = body.length)) ∧
    emitBinary (.seq []) = .ok [2, 0, 0, 0, 0] ∧
    emitBinary (.seq [.int "1", .int "2"]) = .ok [2, 0, 0, 0, 4, 0, 1, 0, 2] := by
  refine ⟨?_, ?_, ?_⟩
  · intro l body b h1 h2
    simp only [encodeBinary, h1] at h2
    cases h2
    refine ⟨?_, fun hlen => u32Val_writeUint32 _ hlen⟩
    rw [writeBytes_eq_self (encodeList_lt l body h1)]
  · simp [emitBinary, encodeBinary, encodeList, writeUint8, writeUint32, writeBytes, Tag.Sequence]
  · simp [emitBinary, encodeBinary, encodeList, intBody, contBytes, strToInt, decNat,
      writeUint8, writeUint32, writeBytes, Tag.Int, Tag.Sequence]

theorem sequence_length_prefix_witness :
    ([2, 0, 0, 0, 0] : List Nat) =
      writeUint8 Tag.Sequence ++ writeUint32 (([] : List Nat)).length ++ ([] : List Nat) ∧
    (([] : List Nat).length < 2 ^ 32 →
      u32Val (writeUint32 ([] : List Nat).length) = ([] : List Nat).length) :=
  sequence_length_prefix.1 [] [] [2, 0, 0, 0, 0]
    (by simp [encodeList])
    (by simp [emitBinary, encodeBinary, encodeList, writeUint8, writeUint32, writeBytes,
      Tag.Sequence])

/-- C5 -/
theorem pair_primitive_indices :
    primTags "Pair" = some 7 ∧ primTags "PAIR" = some 66 ∧
    (∀ (name : String) (p : Nat) (args : Option (List Expr)) (annots : Option (List String))
        (argBytes : List Nat),
      primTags name = some p → encodeArgs args = .ok argBytes →
      encodeBinary (.prim name args annots) =
        .ok (writeUint8 (appTag args annots) ++ writeUint8 p ++ argBytes ++ annotsBytes annots)) ∧
    emitBinary (.prim "PAIR" none none) = .ok [3, 66] ∧
    emitBinary (.prim "Pair" (some [.int "1", .int "2"]) none) = .ok [7, 7, 0, 1, 0, 2] := by
  refine ⟨by decide, by decide, ?_, ?_, ?_⟩
  · intro name p args annots argBytes hp ha
    have hps : primSlot name = some (.num p) := by simp [primSlot, hp]
    simp only [encodeBinary, hps, ha, primByte]
  · simp [emitBinary, encodeBinary, encodeArgs, encodeList, appTag, argsLen, annotBit,
      compactSelected, annotsBytes, writeUint8, primByte, Tag.Prim0,
      show primSlot "PAIR" = some (.num 66) from by decide]
  · simp [emitBinary, encodeBinary, encodeArgs, encodeList, appTag, argsLen, annotBit,
      compactSelected, annotsBytes, writeUint8, primByte, intBody, contBytes, strToInt, decNat,
      Tag.Prim0, Tag.Int,
      show primSlot "Pair" = some (.num 7) from by decide]

theorem pair_primitive_indices_witness :
    encodeBinary (.prim "PAIR" none none) =
      .ok (writeUint8 (appTag none none) ++ writeUint8 66 ++ [] ++ annotsBytes none) :=
  pair_primitive_indices.2.2.1 "PAIR" 66 none none []
    (by decide)
    (by simp [encodeArgs])

/-- C6 -/
theorem annots_block_layout :
    ∀ (name : String) (p : Nat) (args : Option (List Expr)) (l : List String)
      (argBytes b : List Nat),
      primTags name = some p → l ≠ [] → encodeArgs args = .ok argBytes →
      encodeBinary (.prim name args (some l)) = .ok b →
      b = writeUint8 (appTag args (some l)) ++ writeUint8 p ++ argBytes ++
          (writeUint32 (utf8 (String.intercalate " " l)).length ++
            writeBytes (utf8 (String.intercalate " " l))) ∧
      ((utf8 (String.intercalate " " l)).length < 2 ^ 32 →
        u32Val (writeUint32 (utf8 (String.intercalate " " l)).length) =
          (utf8 (String.intercalate " " l)).length) := by
  intro name p args l argBytes b hp hl ha hb
  have hps : primSlot name = some (.num p) := by simp [primSlot, hp]
  simp only [encodeBinary, hps, ha, primByte] at hb
  cases hb
  have hne : l.length ≠ 0 := by simpa using hl
  constructor
  · simp only [annotsBytes, if_neg hne]
  · intro hlen
    exact u32Val_writeUint32 _ hlen

theorem annots_block_layout_witness :
    ([4, 66, 0, 0, 0, 2, 37, 120] : List Nat) =
      writeUint8 (appTag none (some ["%x"])) ++ writeUint8 66 ++ [] ++
        (writeUint32 (utf8 (String.intercalate " " ["%x"])).length ++
          writeBytes (utf8 (String.intercalate " " ["%x"]))) ∧
    ((utf8 (String.intercalate " " ["%x"])).length < 2 ^ 32 →
      u32Val (writeUint32 (utf8 (String.intercalate " " ["%x"])).length) =
        (utf8 (String.intercalate " " ["%x"])).length) :=
  annots_block_layout "PAIR" 66 none ["%x"] [] [4, 66, 0, 0, 0, 2, 37, 120]
    (by decide)
    (by simp)
    (by simp [encodeArgs])
    (by simp [encodeBinary, encodeArgs, appTag, argsLen, annotBit, compactSelected,
      annotsBytes, writeUint8, writeUint32, writeBytes, utf8, utf8Chars, utf8Char,
      String.intercalate, primByte, Tag.Prim0,
      show primSlot "PAIR" = some (.num 66) from by decide])

theorem hexVal_bound {c : Char} {d : Nat} (h : hexVal c = some d) : d < 16 := by
  unfold hexVal at h
  split_ifs at h <;> simp_all <;> omega

theorem hexBytes_valid (cs : List Char) :
    cs.length % 2 = 0 → (∀ c ∈ cs, (hexVal c).isSome) →
    hexBytes cs = hexPairsSpec cs ∧
    (hexBytes cs).length = cs.length / 2 ∧
    (∀ x ∈ hexBytes cs, x < 256) := by
  match cs with
  | [] => intro _ _; simp [hexBytes, hexPairsSpec]
  | [c] => intro h _; simp at h
  | a :: b :: rest =>
    intro h hv
    have h2 : rest.length % 2 = 0 := by
      simp only [List.length_cons] at h
      omega
    have ih := hexBytes_valid rest h2 (fun c hc => hv c (by simp [hc]))
    obtain ⟨da, hda⟩ := Option.isSome_iff_exists.mp (hv a (by simp))
    obtain ⟨db, hdb⟩ := Option.isSome_iff_exists.mp (hv b (by simp))
    have hda16 := hexVal_bound hda
    have hdb16 := hexVal_bound hdb
    have hpv : parseIntHex [a, b] 0 = da * 16 + db := by
      simp [parseIntHex, hda, hdb]
    refine ⟨?_, ?_, ?_⟩
    · simp [hexBytes, hexPairsSpec, hpv, hda, hdb, ih.1]
    · simp [hexBytes, ih.2.1]
      omega
    · intro x hx
      rcases List.mem_cons.mp hx with rfl | hx
      · omega
      · exact ih.2.2 x hx

/-- C7 -/
theorem bytes_hex_decoding :
    (∀ s : String, s.data.length % 2 = 0 → (∀ c ∈ s.data, (hexVal c).isSome) →
      encodeBinary (.bytes s) =
        .ok (writeUint8 Tag.Bytes ++ writeUint32 (s.data.length / 2) ++ hexPairsSpec s.data) ∧
      (hexPairsSpec s.data).length = s.data.length / 2) ∧
    emitBinary (.bytes "0a0b") = .ok [10, 0, 0, 0, 2, 10, 11] := by
  constructor
  · intro s h hv
    obtain ⟨heq, hlen, hlt⟩ := hexBytes_valid s.data h hv
    constructor
    · simp only [encodeBinary]
      rw [writeBytes_eq_self hlt, heq, ← heq, hlen]
    · rw [← heq, hlen]
  · simp [emitBinary, encodeBinary, hexBytes, parseIntHex, hexVal, writeUint8, writeUint32,
      writeBytes, Tag.Bytes]

theorem bytes_hex_decoding_witness :
    encodeBinary (.bytes "0a0b") =
      .ok (writeUint8 Tag.Bytes ++ writeUint32 ("0a0b".data.length / 2) ++
        hexPairsSpec "0a0b".data) ∧
    (hexPairsSpec "0a0b".data).length = "0a0b".data.length / 2 :=
  bytes_hex_decoding.1 "0a0b" (by decide) (by decide)

/-- C8 -/
theorem empty_absent_collapse :
    ∀ (name : String) (args : Option (List Expr)) (annots : Option (List String)),
      encodeBinary (.prim name none annots) = encodeBinary (.prim name (some []) annots) ∧
      encodeBinary (.prim name args none) = encodeBinary (.prim name args (some [])) := by
  intro name args annots
  constructor
  · simp only [encodeBinary]
    cases hp : primSlot name <;>
      simp [encodeArgs, encodeList, appTag, argsLen, compactSelected]
  · simp only [encodeBinary]
    cases hp : primSlot name <;>
      cases ha : encodeArgs args <;>
      simp [annotsBytes, appTag, annotBit]

/-- C9 -/
theorem neg_zero_encoding :
    strToInt "-0" = 0 ∧
    emitBinary (.int "-0") = .ok [0, 0] ∧
    (∀ n : Int, n.natAbs = 0 → intBody n = [0]) := by
  refine ⟨by decide, ?_, ?_⟩
  · simp [emitBinary, encodeBinary, intBody, contBytes, strToInt, decNat, writeUint8, Tag.Int]
  · intro n hn
    have h0 : n = 0 := by omega
    subst h0
    simp [intBody, contBytes]

theorem neg_zero_encoding_witness : intBody 0 = [0] :=
  neg_zero_encoding.2.2 0 (by decide)

/-- C10 -/
theorem output_bytes_bounded :
    ∀ (e : Expr) (out : List Nat), emitBinary e = .ok out → ∀ x ∈ out, x ≤ 255 := by
  intro e out h x hx
  have := encodeBinary_lt e out h x hx
  omega

theorem output_bytes_bounded_witness : (66 : Nat) ≤ 255 :=
  output_bytes_bounded (.prim "PAIR" none none) [3, 66]
    (by simp [emitBinary, encodeBinary, encodeArgs, encodeList, appTag, argsLen, annotBit,
      compactSelected, annotsBytes, writeUint8, primByte, Tag.Prim0,
      show primSlot "PAIR" = some (.num 66) from by decide])
    66 (by simp)
